import Mathlib

/-!
Verification of the parameter-sweep driver (`metropolis.cpp`) of the
Molecular-Spintronics research repository.

The development shallowly embeds the four cooperating pieces of the driver:

* the sweep-specification tokenizer/state machine (`parseLoop`, `parseEntry`,
  `entryCommit`, `rangeVals`, spin-override parsing);
* the odometer enumerator over the per-label cursors (`advance`, `enumRun`),
  mirroring the `nextIter` lambda and its carry loop over `labelNames`;
* the bounded pseudo thread pool (`submitLoop`, `submit`, `drainLoop`)
  mirroring the round-robin polling over `threadPool[...]` futures;
* the result journal (`recordData`) that appends one `<data>` node to the XML
  document and rewrites the whole report file (truncate-then-write).

Machine doubles of the original are modelled as exact rationals (`ℚ`);
unbounded `while` loops are modelled with explicit fuel.
-/

namespace Metropolis

/-! ## Sweep enumerator (the `nextIter` lambda)

The C++ driver keeps one cursor per label (`iters`), one length per label
(`iterLengths`), and the label declaration order (`labelNames`).  We model the
cursors and the lengths as two parallel lists ordered like `labelNames`.
`advance` is the carry loop

  `while (iLabelNames != labelNames.end() && ++iters[*iLabelNames] >= iterLengths[*iLabelNames]) iters[*iLabelNames++] = 0;`

returning the new cursor list and the new value of `hasNextIter`. -/

def advance : List ℕ → List ℕ → List ℕ × Bool
  | [], [] => ([], false)
  | l :: ls, c :: cs =>
    if l ≤ c + 1 then
      let r := advance ls cs
      (0 :: r.1, r.2)
    else
      ((c + 1) :: cs, true)
  | _, _ => ([], false)

/-- One step of the enumerator: `nextIter` first reads the current cursors (the
materialized configuration), then advances them. -/
def nextIter (lengths cursors : List ℕ) : List ℕ × (List ℕ × Bool) :=
  (cursors, advance lengths cursors)

/-- The driver loop `while (hasNextIter) { ... nextIter() ... }`, collecting the
cursor snapshots that get materialized into configurations, with fuel for the
unbounded loop. -/
def enumRun (lengths cursors : List ℕ) (hasNext : Bool) (fuel : ℕ) :
    List (List ℕ) :=
  match fuel, hasNext with
  | 0, _ => []
  | _ + 1, false => []
  | f + 1, true =>
    let r := nextIter lengths cursors
    r.1 :: enumRun lengths r.2.1 r.2.2 f

/-- Mixed-radix digits of `j`, first (fastest-varying) label first. -/
def fromIdx : List ℕ → ℕ → List ℕ
  | [], _ => []
  | l :: ls, j => j % l :: fromIdx ls (j / l)

/-- Mixed-radix value of a cursor list. -/
def toIdx : List ℕ → List ℕ → ℕ
  | [], _ => 0
  | _ :: _, [] => 0
  | l :: ls, c :: cs => c + l * toIdx ls cs

/-- Every cursor strictly below its label length (and same shape). -/
def inRange : List ℕ → List ℕ → Bool
  | [], [] => true
  | c :: cs, l :: ls => decide (c < l) && inRange cs ls
  | _, _ => false

theorem fromIdx_zero (ls : List ℕ) : fromIdx ls 0 = ls.map fun _ => 0 := by
  induction ls with
  | nil => rfl
  | cons l ls ih => simp [fromIdx, Nat.zero_mod, Nat.zero_div, ih]

theorem prod_pos_of_one_le {ls : List ℕ} (h : ∀ l ∈ ls, 1 ≤ l) :
    0 < ls.prod := by
  induction ls with
  | nil => simp
  | cons l ls ih =>
    rw [List.prod_cons]
    exact Nat.mul_pos (h l (by simp)) (ih fun x hx => h x (by simp [hx]))

theorem advance_fromIdx {ls : List ℕ} (h : ∀ l ∈ ls, 1 ≤ l) :
    ∀ j : ℕ, j + 1 < ls.prod →
      advance ls (fromIdx ls j) = (fromIdx ls (j + 1), true) := by
  induction ls with
  | nil => intro j hj; simp at hj
  | cons l ls ih =>
    intro j hj
    have hl : 1 ≤ l := h l (by simp)
    have hlpos : 0 < l := hl
    have hmod : j % l < l := Nat.mod_lt _ hlpos
    rw [List.prod_cons] at hj
    by_cases hc : l ≤ j % l + 1
    · -- carry into the next label
      have hme : j % l + 1 = l := le_antisymm hmod hc
      have hdm := Nat.div_add_mod j l
      have hdistrib : l * (j / l + 1) = l * (j / l) + l := by ring
      have hsucc : j + 1 = l * (j / l + 1) := by omega
      have hmod1 : (j + 1) % l = 0 := by rw [hsucc]; exact Nat.mul_mod_right _ _
      have hdiv1 : (j + 1) / l = j / l + 1 := by
        rw [hsucc]; exact Nat.mul_div_cancel_left _ hlpos
      have hlt : j / l + 1 < ls.prod :=
        Nat.lt_of_mul_lt_mul_left (hsucc ▸ hj)
      have ihr := ih (fun x hx => h x (by simp [hx])) (j / l) hlt
      simp only [fromIdx, advance, if_pos hc, ihr, hmod1, hdiv1]
    · -- no carry: the first label accepts the increment
      push_neg at hc
      have hdm := Nat.div_add_mod j l
      have hsucc : j + 1 = l * (j / l) + (j % l + 1) := by omega
      have hmod1 : (j + 1) % l = j % l + 1 := by
        rw [hsucc, Nat.mul_add_mod, Nat.mod_eq_of_lt hc]
      have hdiv1 : (j + 1) / l = j / l := by
        rw [hsucc, Nat.mul_add_div hlpos, Nat.div_eq_of_lt hc, Nat.add_zero]
      simp only [fromIdx, advance, if_neg (by omega : ¬ l ≤ j % l + 1), hmod1,
        hdiv1]

theorem advance_last {ls : List ℕ} (h : ∀ l ∈ ls, 1 ≤ l) :
    advance ls (fromIdx ls (ls.prod - 1)) = (ls.map fun _ => 0, false) := by
  induction ls with
  | nil => rfl
  | cons l ls ih =>
    have hl : 1 ≤ l := h l (by simp)
    have hlpos : 0 < l := hl
    have hP : 0 < ls.prod := prod_pos_of_one_le fun x hx => h x (by simp [hx])
    rw [List.prod_cons]
    have hdecomp : l * ls.prod - 1 = l * (ls.prod - 1) + (l - 1) := by
      obtain ⟨k, hk⟩ : ∃ k, ls.prod = k + 1 := ⟨ls.prod - 1, by omega⟩
      rw [hk]
      simp only [Nat.add_sub_cancel]
      have h1 : l * (k + 1) = l * k + l := by ring
      omega
    have hmod : (l * ls.prod - 1) % l = l - 1 := by
      rw [hdecomp, Nat.mul_add_mod, Nat.mod_eq_of_lt (by omega)]
    have hdiv : (l * ls.prod - 1) / l = ls.prod - 1 := by
      rw [hdecomp, Nat.mul_add_div hlpos, Nat.div_eq_of_lt (by omega)]
      omega
    have ihr := ih fun x hx => h x (by simp [hx])
    simp only [fromIdx, hmod, hdiv, advance, if_pos (by omega : l ≤ l - 1 + 1),
      ihr, List.map]

theorem enumRun_spec {ls : List ℕ} (h : ∀ l ∈ ls, 1 ≤ l) :
    ∀ n j fuel, 1 ≤ n → j + n = ls.prod → n ≤ fuel →
      enumRun ls (fromIdx ls j) true fuel =
        (List.range' j n).map (fromIdx ls) := by
  intro n
  induction n with
  | zero => intro j fuel h1; omega
  | succ m ihm =>
    intro j fuel h1 hsum hfuel
    obtain ⟨f, rfl⟩ : ∃ f, fuel = f + 1 := ⟨fuel - 1, by omega⟩
    rcases Nat.eq_zero_or_pos m with hm | hm
    · subst hm
      have hj : j = ls.prod - 1 := by omega
      subst hj
      simp only [enumRun, nextIter, advance_last h]
      cases f <;> simp [enumRun, List.range']
    · have hj1 : j + 1 < ls.prod := by omega
      have hadv := advance_fromIdx h j hj1
      simp only [enumRun, nextIter, hadv]
      rw [ihm (j + 1) f hm (by omega) (by omega)]
      rw [List.range'_succ]
      simp

theorem fromIdx_inRange {ls : List ℕ} (h : ∀ l ∈ ls, 1 ≤ l) :
    ∀ j, j < ls.prod → inRange (fromIdx ls j) ls = true := by
  induction ls with
  | nil => intro j hj; rfl
  | cons l ls ih =>
    intro j hj
    have hl : 0 < l := h l (by simp)
    rw [List.prod_cons] at hj
    have hdiv : j / l < ls.prod := Nat.div_lt_of_lt_mul (by omega)
    simp only [fromIdx, inRange, Bool.and_eq_true, decide_eq_true_eq]
    exact ⟨Nat.mod_lt _ hl, ih (fun x hx => h x (by simp [hx])) _ hdiv⟩

theorem toIdx_fromIdx {ls : List ℕ} :
    ∀ j, j < ls.prod → toIdx ls (fromIdx ls j) = j := by
  induction ls with
  | nil => intro j hj; simp at hj; simp [fromIdx, toIdx, hj]
  | cons l ls ih =>
    intro j hj
    rw [List.prod_cons] at hj
    rcases Nat.eq_zero_or_pos l with hl | hl
    · subst hl; simp at hj
    have hdiv : j / l < ls.prod := Nat.div_lt_of_lt_mul (by omega)
    simp only [fromIdx, toIdx, ih _ hdiv]
    exact Nat.mod_add_div j l

theorem fromIdx_toIdx :
    ∀ {cs ls : List ℕ}, inRange cs ls = true →
      fromIdx ls (toIdx ls cs) = cs := by
  intro cs
  induction cs with
  | nil => intro ls h; cases ls with
    | nil => rfl
    | cons l ls => simp [inRange] at h
  | cons c cs ih =>
    intro ls h
    cases ls with
    | nil => simp [inRange] at h
    | cons l ls =>
      simp only [inRange, Bool.and_eq_true, decide_eq_true_eq] at h
      obtain ⟨hcl, hrest⟩ := h
      have h1 : (c + l * toIdx ls cs) % l = c := by
        rw [Nat.add_mul_mod_self_left, Nat.mod_eq_of_lt hcl]
      have h2 : (c + l * toIdx ls cs) / l = toIdx ls cs := by
        rw [Nat.add_mul_div_left _ _ (by omega : 0 < l),
          Nat.div_eq_of_lt hcl, Nat.zero_add]
      simp only [fromIdx, toIdx, h1, h2, ih hrest]

theorem toIdx_lt :
    ∀ {cs ls : List ℕ}, inRange cs ls = true → toIdx ls cs < ls.prod := by
  intro cs
  induction cs with
  | nil => intro ls h; cases ls with
    | nil => simp [toIdx]
    | cons l ls => simp [inRange] at h
  | cons c cs ih =>
    intro ls h
    cases ls with
    | nil => simp [inRange] at h
    | cons l ls =>
      simp only [inRange, Bool.and_eq_true, decide_eq_true_eq] at h
      obtain ⟨hcl, hrest⟩ := h
      have ht := ih hrest
      simp only [toIdx, List.prod_cons]
      calc c + l * toIdx ls cs < l + l * toIdx ls cs := by omega
        _ = l * (toIdx ls cs + 1) := by ring
        _ ≤ l * ls.prod := Nat.mul_le_mul_left _ (by omega)

/-- **C1.** For a parsed sweep whose labels have lengths `l1..lk` (all `≥ 1`,
first-appearance order, first label first in the list), running the
`while (hasNextIter) { nextIter() }` loop with enough fuel yields exactly the
`∏ li` cursor combinations, in odometer order with the first-declared label
fastest-varying (`fromIdx` gives digit `i` of the mixed-radix counter to label
`i`); every configuration is materialized from the pre-advance cursor values,
each in-range cursor combination occurs exactly once, and no post-overflow
cursor state is materialized. -/
theorem enumerator_odometer_spec (ls : List ℕ) (fuel : ℕ)
    (h1 : ∀ l ∈ ls, 1 ≤ l) (h2 : ls.prod ≤ fuel) :
    enumRun ls (ls.map fun _ => 0) true fuel =
        (List.range ls.prod).map (fromIdx ls) ∧
      (enumRun ls (ls.map fun _ => 0) true fuel).length = ls.prod ∧
      (enumRun ls (ls.map fun _ => 0) true fuel).Nodup ∧
      ∀ cs, cs ∈ enumRun ls (ls.map fun _ => 0) true fuel ↔
        inRange cs ls = true := by
  have hP : 0 < ls.prod := prod_pos_of_one_le h1
  have hmain : enumRun ls (ls.map fun _ => 0) true fuel =
      (List.range ls.prod).map (fromIdx ls) := by
    rw [← fromIdx_zero]
    rw [enumRun_spec h1 ls.prod 0 fuel hP (by omega) h2]
    rw [List.range_eq_range']
  refine ⟨hmain, ?_, ?_, ?_⟩
  · rw [hmain]; simp
  · rw [hmain]
    refine List.Nodup.map_on ?_ (List.nodup_range _)
    intro a ha b hb hab
    rw [List.mem_range] at ha hb
    have := toIdx_fromIdx a ha
    rw [hab, toIdx_fromIdx b hb] at this
    omega
  · intro cs
    rw [hmain]
    constructor
    · intro hm
      rw [List.mem_map] at hm
      obtain ⟨j, hj, rfl⟩ := hm
      rw [List.mem_range] at hj
      exact fromIdx_inRange h1 j hj
    · intro hr
      rw [List.mem_map]
      exact ⟨toIdx ls cs, List.mem_range.mpr (toIdx_lt hr), fromIdx_toIdx hr⟩

/-- Witness for C1 at the concrete sweep with label lengths `[2, 3]`. -/
theorem enumerator_odometer_spec_witness :
    (∀ l ∈ [2, 3], 1 ≤ l) ∧ ([2, 3] : List ℕ).prod ≤ 6 ∧
      (enumRun [2, 3] (([2, 3] : List ℕ).map fun _ => 0) true 6 =
          (List.range ([2, 3] : List ℕ).prod).map (fromIdx [2, 3]) ∧
        (enumRun [2, 3] (([2, 3] : List ℕ).map fun _ => 0) true 6).length =
          ([2, 3] : List ℕ).prod ∧
        (enumRun [2, 3] (([2, 3] : List ℕ).map fun _ => 0) true 6).Nodup ∧
        ∀ cs, cs ∈ enumRun [2, 3] (([2, 3] : List ℕ).map fun _ => 0) true 6 ↔
          inRange cs [2, 3] = true) :=
  ⟨by decide, by decide,
    enumerator_odometer_spec [2, 3] 6 (by decide) (by decide)⟩

/-! ## Single-threaded main loop (threadCount == 1)

With one worker the `while (hasNextIter)` loop runs `algorithm` inline
(`postInfo = algorithm(preInfo)`), `validResult` stays `true`, and
`recordData(postInfo)` appends the result to the report before the next
enumeration step. -/

def runSingle {α : Type} (job : List ℕ → α) (lengths cursors : List ℕ)
    (hasNext : Bool) (fuel : ℕ) (report : List α) : List α :=
  match fuel, hasNext with
  | 0, _ => report
  | _ + 1, false => report
  | f + 1, true =>
    let r := nextIter lengths cursors
    runSingle job lengths r.2.1 r.2.2 f (report ++ [job r.1])

theorem runSingle_append {α : Type} (job : List ℕ → α) :
    ∀ (fuel : ℕ) (lengths cursors : List ℕ) (hasNext : Bool)
      (report : List α),
      runSingle job lengths cursors hasNext fuel report =
        report ++ (enumRun lengths cursors hasNext fuel).map job := by
  intro fuel
  induction fuel with
  | zero => intro lengths cursors hasNext report; simp [runSingle, enumRun]
  | succ f ih =>
    intro lengths cursors hasNext report
    cases hasNext with
    | false => simp [runSingle, enumRun]
    | true =>
      simp only [runSingle, enumRun, ih, List.map_cons]
      rw [List.append_cons, List.append_assoc]
      simp

/-- **C2.** With worker count `N = 1`, every configuration produced by the
enumerator is run inline at submission (`algorithm` applied to the materialized
cursors) and its result is recorded immediately, so for every input sweep the
report records are exactly the enumeration, in enumeration order. -/
theorem single_thread_report_order {α : Type} (job : List ℕ → α)
    (lengths : List ℕ) (fuel : ℕ) :
    runSingle job lengths (lengths.map fun _ => 0) true fuel [] =
      (enumRun lengths (lengths.map fun _ => 0) true fuel).map job := by
  rw [runSingle_append]
  simp

/-! ## Bounded pseudo thread pool (threadCount > 1)

`threadPool` is an array of `N` futures; a slot is empty iff its future is not
`valid()`.  We model a slot as `Option α` (`none` = never populated or already
consumed).  Readiness of `wait_for(10ms)` is an oracle `ready : ℕ → ℕ → Bool`
indexed by poll step (the model's clock, one tick per loop iteration) and slot
index. -/

/-- Number of in-flight jobs: occupied slots. -/
def countSome {α : Type} (slots : List (Option α)) : ℕ :=
  (slots.filterMap id).length

theorem countSome_le_length {α : Type} (slots : List (Option α)) :
    countSome slots ≤ slots.length :=
  List.length_filterMap_le _ _

theorem getD_set_ne {α : Type} :
    ∀ (l : List (Option α)) (i j : ℕ) (v : Option α), i ≠ j →
      (l.set i v).getD j none = l.getD j none := by
  intro l
  induction l with
  | nil => intro i j v h; simp [List.set]
  | cons x xs ih =>
    intro i j v h
    cases i with
    | zero =>
      cases j with
      | zero => exact absurd rfl h
      | succ k => simp [List.set, List.getD]
    | succ m =>
      cases j with
      | zero => simp [List.set, List.getD]
      | succ k =>
        simp only [List.set, List.getD_cons_succ]
        exact ih m k v (by omega)

theorem getD_set_self {α : Type} :
    ∀ (l : List (Option α)) (i : ℕ) (v : Option α), i < l.length →
      (l.set i v).getD i none = v := by
  intro l
  induction l with
  | nil => intro i v h; simp at h
  | cons x xs ih =>
    intro i v h
    cases i with
    | zero => simp [List.set, List.getD]
    | succ m =>
      simp only [List.set, List.getD_cons_succ]
      exact ih m v (by simpa using h)

theorem length_set_eq {α : Type} (l : List (Option α)) (i : ℕ)
    (v : Option α) : (l.set i v).length = l.length :=
  List.length_set l i v

theorem countSome_set_of_none {α : Type} :
    ∀ (l : List (Option α)) (i : ℕ) (a : α), l.getD i none = none →
      i < l.length → countSome (l.set i (some a)) = countSome l + 1 := by
  intro l
  induction l with
  | nil => intro i a _ h; simp at h
  | cons x xs ih =>
    intro i a hg h
    cases i with
    | zero =>
      simp only [List.getD_cons_zero] at hg
      subst hg
      simp [countSome, List.set, List.filterMap_cons]
    | succ m =>
      simp only [List.getD_cons_succ] at hg
      have := ih m a hg (by simpa using h)
      cases x with
      | none => simpa [countSome, List.set, List.filterMap_cons] using this
      | some b => simpa [countSome, List.set, List.filterMap_cons] using this

theorem countSome_set_of_some {α : Type} :
    ∀ (l : List (Option α)) (i : ℕ) (a b : α), l.getD i none = some b →
      countSome (l.set i (some a)) = countSome l := by
  intro l
  induction l with
  | nil => intro i a b h; simp [List.getD] at h
  | cons x xs ih =>
    intro i a b hg
    cases i with
    | zero =>
      simp only [List.getD_cons_zero] at hg
      subst hg
      simp [countSome, List.set, List.filterMap_cons]
    | succ m =>
      simp only [List.getD_cons_succ] at hg
      have := ih m a b hg
      cases x with
      | none => simpa [countSome, List.set, List.filterMap_cons] using this
      | some c => simpa [countSome, List.set, List.filterMap_cons] using this

/-- The `while(true)` scan inside `submit`: starting from the persistent
round-robin cursor `nextIndex`, an empty (`!valid()`) slot breaks with
`validResult = false`; a ready occupied slot breaks after `get()`; otherwise the
cursor moves on (`nextIndex = (nextIndex + 1) % threadCount`).  Returns the
chosen slot and the extracted result, or `none` if fuel runs out while every
slot stays busy. -/
def submitLoop {α : Type} (N : ℕ) (ready : ℕ → ℕ → Bool) :
    List (Option α) → ℕ → ℕ → ℕ → Option (ℕ × Option α)
  | _, _, _, 0 => none
  | slots, idx, t, fuel + 1 =>
    match slots.getD idx none with
    | none => some (idx, none)
    | some a =>
      if ready t idx then some (idx, some a)
      else submitLoop N ready slots ((idx + 1) % N) (t + 1) fuel

/-- `submit`: run the scan, then start the new job in the chosen slot
(`threadPool[nextIndex] = async(algorithm, preInfo)`). -/
def submit {α : Type} (N : ℕ) (ready : ℕ → ℕ → Bool) (slots : List (Option α))
    (idx t fuel : ℕ) (job : α) : Option (List (Option α) × ℕ × Option α) :=
  match submitLoop N ready slots idx t fuel with
  | some (i, res) => some (slots.set i (some job), i, res)
  | none => none

theorem submitLoop_charac {α : Type} (N : ℕ) (ready : ℕ → ℕ → Bool) :
    ∀ (fuel : ℕ) (slots : List (Option α)) (idx t i : ℕ) (res : Option α),
      submitLoop N ready slots idx t fuel = some (i, res) → idx < N →
      i < N ∧ ((slots.getD i none = none ∧ res = none) ∨
        ∃ a, slots.getD i none = some a ∧ res = some a) := by
  intro fuel
  induction fuel with
  | zero => intro slots idx t i res h _; simp [submitLoop] at h
  | succ f ih =>
    intro slots idx t i res h hidx
    rw [submitLoop] at h
    split at h
    · rename_i hg
      simp only [Option.some.injEq, Prod.mk.injEq] at h
      obtain ⟨rfl, rfl⟩ := h
      exact ⟨hidx, Or.inl ⟨hg, rfl⟩⟩
    · rename_i a hg
      split at h
      · simp only [Option.some.injEq, Prod.mk.injEq] at h
        obtain ⟨rfl, rfl⟩ := h
        exact ⟨hidx, Or.inr ⟨a, hg, rfl⟩⟩
      · exact ih slots ((idx + 1) % N) (t + 1) i res h
          (Nat.mod_lt _ (by omega))

/-- **C3.** For worker count `N > 1`, whenever `submit` completes it has either
claimed an empty slot (starting the new job there and returning no result) or
extracted the completed result from exactly one occupied slot before reusing
that slot for the new job; all other slots are untouched, the pool still has
exactly `N` slots, and at most `N` jobs are in flight afterwards (so at no
point do more than `N` jobs run concurrently). -/
theorem submit_bounded_slots {α : Type} (N : ℕ) (ready : ℕ → ℕ → Bool)
    (slots slots' : List (Option α)) (idx t fuel i : ℕ) (job : α)
    (res : Option α) (hN : 1 < N) (hlen : slots.length = N) (hidx : idx < N)
    (heq : submit N ready slots idx t fuel job = some (slots', i, res)) :
    i < N ∧ slots' = slots.set i (some job) ∧
      (∀ j, j ≠ i → slots'.getD j none = slots.getD j none) ∧
      ((slots.getD i none = none ∧ res = none ∧
          countSome slots' = countSome slots + 1) ∨
        (∃ a, slots.getD i none = some a ∧ res = some a ∧
          countSome slots' = countSome slots)) ∧
      slots'.length = N ∧ countSome slots' ≤ N := by
  rw [submit] at heq
  rcases hsl : submitLoop N ready slots idx t fuel with _ | ⟨i', res'⟩
  · rw [hsl] at heq; simp at heq
  · rw [hsl] at heq
    simp only [Option.some.injEq, Prod.mk.injEq] at heq
    obtain ⟨rfl, rfl, rfl⟩ := heq
    obtain ⟨hiN, hcases⟩ :=
      submitLoop_charac N ready fuel slots idx t i' res' hsl hidx
    have hlen' : (slots.set i' (some job)).length = N := by
      rw [length_set_eq, hlen]
    refine ⟨hiN, rfl, fun j hj => getD_set_ne slots i' j _ (by omega), ?_, hlen',
      ?_⟩
    · rcases hcases with ⟨hnone, rfl⟩ | ⟨a, hsome, rfl⟩
      · exact Or.inl ⟨hnone, rfl,
          countSome_set_of_none slots i' job hnone (by omega)⟩
      · exact Or.inr ⟨a, hsome, rfl, countSome_set_of_some slots i' job a hsome⟩
    · calc countSome (slots.set i' (some job)) ≤
          (slots.set i' (some job)).length := countSome_le_length _
        _ = N := hlen'

/-- Witness for C3: a two-slot pool where slot 0 is occupied and ready. -/
theorem submit_bounded_slots_witness :
    (1 < 2 ∧ ([some 7, none] : List (Option ℕ)).length = 2 ∧ 0 < 2 ∧
      submit 2 (fun _ _ => true) ([some 7, none] : List (Option ℕ)) 0 0 1 9 =
        some ([some 9, none], 0, some 7)) ∧
      (0 < 2 ∧ ([some 9, none] : List (Option ℕ)) =
          ([some 7, none] : List (Option ℕ)).set 0 (some 9) ∧
        (∀ j, j ≠ 0 → ([some 9, none] : List (Option ℕ)).getD j none =
          ([some 7, none] : List (Option ℕ)).getD j none) ∧
        ((([some 7, none] : List (Option ℕ)).getD 0 none = none ∧
            (some 7 : Option ℕ) = none ∧
            countSome ([some 9, none] : List (Option ℕ)) =
              countSome ([some 7, none] : List (Option ℕ)) + 1) ∨
          (∃ a, ([some 7, none] : List (Option ℕ)).getD 0 none = some a ∧
            (some 7 : Option ℕ) = some a ∧
            countSome ([some 9, none] : List (Option ℕ)) =
              countSome ([some 7, none] : List (Option ℕ)))) ∧
        ([some 9, none] : List (Option ℕ)).length = 2 ∧
        countSome ([some 9, none] : List (Option ℕ)) ≤ 2) :=
  ⟨⟨by decide, by decide, by decide, by decide⟩,
    submit_bounded_slots 2 (fun _ _ => true) [some 7, none] [some 9, none]
      0 0 1 0 9 (some 7) (by decide) (by decide) (by decide) (by decide)⟩

/-! ## Drain loop (clean-up after the enumerator is exhausted)

The C++ clean-up sweeps the pool round-robin:

    unsigned openThreads = 0;
    while (openThreads < threadCount) {
      if (nextIndex == 0) openThreads = 0;
      if (threadPool[nextIndex].valid()) {
        if (ready) { postInfo = get(); recordData(postInfo); openThreads++; }
      } else { openThreads++; }
      nextIndex = (nextIndex + 1) % threadCount;
    }

A slot becomes invalid once `get()` consumes its future, so draining closes it.
`acc` collects the recorded results; `t` is the model clock (one tick per loop
iteration). -/

def drainLoop {α : Type} (N : ℕ) (ready : ℕ → ℕ → Bool) :
    List (Option α) → ℕ → ℕ → ℕ → List α → ℕ → Option (List α)
  | _, _, _, _, _, 0 => none
  | slots, idx, opn, t, acc, fuel + 1 =>
    if N ≤ opn then some acc
    else
      match slots.getD idx none with
      | some a =>
        if ready t idx then
          drainLoop N ready (slots.set idx none) ((idx + 1) % N)
            ((if idx = 0 then 0 else opn) + 1) (t + 1) (acc ++ [a]) fuel
        else
          drainLoop N ready slots ((idx + 1) % N)
            (if idx = 0 then 0 else opn) (t + 1) acc fuel
      | none =>
        drainLoop N ready slots ((idx + 1) % N)
          ((if idx = 0 then 0 else opn) + 1) (t + 1) acc fuel

/-- Loop invariant of the drain sweep: `opn` counts, since the last reset at
slot `0`, consecutively visited slots each found (or made) empty.  When a full
lap reaches `opn = N`, every slot is empty. -/
def DrainInv {α : Type} (N : ℕ) (slots : List (Option α)) (idx opn : ℕ) :
    Prop :=
  slots.length = N ∧ idx < N ∧
    (if idx = 0 then opn ≤ N ∧ (opn = N → ∀ s ∈ slots, s = none)
     else opn ≤ idx ∧ (opn = idx → ∀ j, j < idx → slots.getD j none = none))

theorem all_none_of_getD {α : Type} :
    ∀ (l : List (Option α)), (∀ j, j < l.length → l.getD j none = none) →
      ∀ s ∈ l, s = none := by
  intro l
  induction l with
  | nil => intro _ s hs; simp at hs
  | cons x xs ih =>
    intro h s hs
    rcases List.mem_cons.mp hs with rfl | hs'
    · have := h 0 (by simp)
      simpa using this
    · exact ih (fun j hj => by
        have := h (j + 1) (by simpa using Nat.succ_lt_succ hj)
        simpa using this) s hs'

theorem filterMap_eq_nil_of_all_none {α : Type} (l : List (Option α))
    (h : ∀ s ∈ l, s = none) : l.filterMap id = [] := by
  induction l with
  | nil => rfl
  | cons x xs ih =>
    have hx := h x (by simp)
    subst hx
    simp only [List.filterMap_cons, id]
    exact ih fun s hs => h s (by simp [hs])

theorem filterMap_set_none_cons {α : Type} :
    ∀ (l : List (Option α)) (i : ℕ) (a : α), l.getD i none = some a →
      (l.filterMap id : Multiset α) =
        a ::ₘ ((l.set i none).filterMap id : Multiset α) := by
  intro l
  induction l with
  | nil => intro i a h; simp [List.getD] at h
  | cons x xs ih =>
    intro i a hg
    cases i with
    | zero =>
      simp only [List.getD_cons_zero] at hg
      subst hg
      simp [List.set, List.filterMap_cons]
    | succ m =>
      simp only [List.getD_cons_succ] at hg
      have hrec := ih m a hg
      cases x with
      | none =>
        simpa [List.set, List.filterMap_cons] using hrec
      | some b =>
        simp only [List.set, List.filterMap_cons, id] at hrec ⊢
        rw [← Multiset.cons_coe, ← Multiset.cons_coe, hrec,
          Multiset.cons_swap]

theorem DrainInv_step_close {α : Type} {N : ℕ}
    {slots : List (Option α)} (slots' : List (Option α)) {idx opn : ℕ}
    (hInv : DrainInv N slots idx opn) (hN : 1 < N) (hopn : opn < N)
    (hlen' : slots'.length = N)
    (hidxn : slots'.getD idx none = none)
    (hother : ∀ j, j ≠ idx → slots'.getD j none = slots.getD j none) :
    DrainInv N slots' ((idx + 1) % N) ((if idx = 0 then 0 else opn) + 1) := by
  obtain ⟨hlen, hidx, hC⟩ := hInv
  by_cases h0 : idx = 0
  · subst h0
    rw [if_pos rfl] at hC ⊢
    have hmod : (0 + 1) % N = 1 := by
      rw [Nat.mod_eq_of_lt (by omega)]
    rw [hmod]
    refine ⟨hlen', by omega, ?_⟩
    rw [if_neg (by omega)]
    refine ⟨le_refl 1, fun _ j hj => ?_⟩
    have hj0 : j = 0 := by omega
    subst hj0
    exact hidxn
  · rw [if_neg h0] at hC ⊢
    obtain ⟨hle, himp⟩ := hC
    by_cases h1 : idx + 1 = N
    · have hmod : (idx + 1) % N = 0 := by rw [h1, Nat.mod_self]
      rw [hmod]
      refine ⟨hlen', by omega, ?_⟩
      rw [if_pos rfl]
      refine ⟨by omega, fun hNeq => ?_⟩
      have hoi : opn = idx := by omega
      have hprev := himp hoi
      refine all_none_of_getD slots' (fun j hj => ?_)
      rw [hlen'] at hj
      by_cases hji : j = idx
      · subst hji; exact hidxn
      · rw [hother j hji]
        exact hprev j (by omega)
    · have hmod : (idx + 1) % N = idx + 1 := Nat.mod_eq_of_lt (by omega)
      rw [hmod]
      refine ⟨hlen', by omega, ?_⟩
      rw [if_neg (by omega)]
      refine ⟨by omega, fun heq => ?_⟩
      have hoi : opn = idx := by omega
      have hprev := himp hoi
      intro j hj
      by_cases hji : j = idx
      · subst hji; exact hidxn
      · rw [hother j hji]
        exact hprev j (by omega)

theorem DrainInv_step_busy {α : Type} {N : ℕ} {slots : List (Option α)}
    {idx opn : ℕ} (hInv : DrainInv N slots idx opn) (hN : 1 < N) :
    DrainInv N slots ((idx + 1) % N) (if idx = 0 then 0 else opn) := by
  obtain ⟨hlen, hidx, hC⟩ := hInv
  by_cases h0 : idx = 0
  · subst h0
    rw [if_pos rfl]
    have hmod : (0 + 1) % N = 1 := by rw [Nat.mod_eq_of_lt (by omega)]
    rw [hmod]
    exact ⟨hlen, by omega, by rw [if_neg (by omega)]; exact ⟨by omega,
      fun h => by omega⟩⟩
  · rw [if_neg h0] at hC ⊢
    obtain ⟨hle, _⟩ := hC
    by_cases h1 : idx + 1 = N
    · have hmod : (idx + 1) % N = 0 := by rw [h1, Nat.mod_self]
      rw [hmod]
      exact ⟨hlen, by omega, by rw [if_pos rfl]; exact ⟨by omega,
        fun h => by omega⟩⟩
    · have hmod : (idx + 1) % N = idx + 1 := Nat.mod_eq_of_lt (by omega)
      rw [hmod]
      exact ⟨hlen, by omega, by rw [if_neg (by omega)]; exact ⟨by omega,
        fun h => by omega⟩⟩

theorem drainLoop_some_multiset {α : Type} (N : ℕ) (ready : ℕ → ℕ → Bool)
    (hN : 1 < N) :
    ∀ (fuel : ℕ) (slots : List (Option α)) (idx opn t : ℕ) (acc out : List α),
      drainLoop N ready slots idx opn t acc fuel = some out →
      DrainInv N slots idx opn →
      (out : Multiset α) = (acc : Multiset α) + (slots.filterMap id : Multiset α) := by
  intro fuel
  induction fuel with
  | zero => intro slots idx opn t acc out h _; simp [drainLoop] at h
  | succ f ih =>
    intro slots idx opn t acc out h hInv
    rw [drainLoop] at h
    split at h
    · -- termination check: a full empty lap was seen
      rename_i hterm
      simp only [Option.some.injEq] at h
      subst h
      obtain ⟨hlen, hidx, hC⟩ := hInv
      have hallnone : ∀ s ∈ slots, s = none := by
        by_cases h0 : idx = 0
        · subst h0
          rw [if_pos rfl] at hC
          exact hC.2 (by omega)
        · rw [if_neg h0] at hC
          exact absurd hterm (by omega)
      rw [filterMap_eq_nil_of_all_none slots hallnone]
      simp
    · rename_i hterm
      have hopn : opn < N := by omega
      split at h
      · rename_i a hg
        split at h
        · -- ready: extract the result, close the slot
          have hidx : idx < slots.length := by
            obtain ⟨hlen, hidx, _⟩ := hInv
            omega
          have hInv' := DrainInv_step_close (slots.set idx none)
            hInv hN hopn (by rw [List.length_set]; exact hInv.1)
            (getD_set_self slots idx none hidx)
            (fun j hj => getD_set_ne slots idx j none (by omega))
          have hrec := ih _ _ _ _ _ _ h hInv'
          rw [hrec, filterMap_set_none_cons slots idx a hg, Multiset.cons_coe,
            Multiset.coe_add, Multiset.coe_add]
          simp
        · -- occupied but not ready: nothing changes
          have hrec := ih _ _ _ _ _ _ h (DrainInv_step_busy hInv hN)
          exact hrec
      · rename_i hg
        -- empty slot: skipped silently, counts toward the lap
        have hInv' := DrainInv_step_close slots hInv hN hopn
          hInv.1 hg (fun _ _ => rfl)
        exact ih _ _ _ _ _ _ h hInv'

/-- Termination measure for the drain loop once every poll reports ready. -/
def drainMu (N idx opn : ℕ) : ℕ :=
  if N ≤ opn then 1
  else if idx = 0 then N + 2
  else if idx ≤ opn then N - idx + 2
  else 2 * N - idx + 3

theorem drainMu_pos (N idx opn : ℕ) : 1 ≤ drainMu N idx opn := by
  unfold drainMu
  split_ifs <;> omega

theorem drainMu_le (N idx opn : ℕ) (hidx : idx < N) :
    drainMu N idx opn ≤ 2 * N + 2 := by
  unfold drainMu
  split_ifs <;> omega

theorem drainMu_dec_inc (N idx opn : ℕ) (hN : 1 < N) (hidx : idx < N)
    (hopn : opn < N) :
    drainMu N ((idx + 1) % N) ((if idx = 0 then 0 else opn) + 1) + 1 ≤
      drainMu N idx opn := by
  by_cases h0 : idx = 0
  · subst h0
    rw [if_pos rfl]
    have hmod : (0 + 1) % N = 1 := Nat.mod_eq_of_lt (by omega)
    rw [hmod]
    unfold drainMu
    split_ifs <;> first | omega | exact absurd ‹False› not_false
  · rw [if_neg h0]
    by_cases h1 : idx + 1 = N
    · rw [h1, Nat.mod_self]
      unfold drainMu
      split_ifs <;> first | omega | exact absurd ‹False› not_false
    · rw [Nat.mod_eq_of_lt (by omega : idx + 1 < N)]
      unfold drainMu
      split_ifs <;> first | omega | exact absurd ‹False› not_false

theorem drainLoop_term_ready {α : Type} (N : ℕ) (ready : ℕ → ℕ → Bool)
    (hN : 1 < N) :
    ∀ (fuel : ℕ) (slots : List (Option α)) (idx opn t : ℕ) (acc : List α),
      (∀ i t', t ≤ t' → ready t' i = true) → idx < N →
      drainMu N idx opn ≤ fuel →
      (drainLoop N ready slots idx opn t acc fuel).isSome := by
  intro fuel
  induction fuel with
  | zero =>
    intro slots idx opn t acc _ _ hmu
    exact absurd hmu (by have := drainMu_pos N idx opn; omega)
  | succ f ih =>
    intro slots idx opn t acc hready hidx hmu
    rw [drainLoop]
    split
    · simp
    · rename_i hterm
      have hopn : opn < N := by omega
      have hdec := drainMu_dec_inc N idx opn hN hidx hopn
      have hidx' : (idx + 1) % N < N := Nat.mod_lt _ (by omega)
      have hready' : ∀ i t', t + 1 ≤ t' → ready t' i = true :=
        fun i t' ht' => hready i t' (by omega)
      split
      · rename_i a hg
        rw [if_pos (hready idx t (le_refl t))]
        exact ih _ _ _ _ _ hready' hidx' (by omega)
      · exact ih _ _ _ _ _ hready' hidx' (by omega)

theorem drainLoop_term {α : Type} (N : ℕ) (ready : ℕ → ℕ → Bool) (T : ℕ)
    (hN : 1 < N) (hready : ∀ i t, T ≤ t → ready t i = true) :
    ∀ (k fuel : ℕ) (slots : List (Option α)) (idx opn t : ℕ) (acc : List α),
      idx < N → T ≤ t + k → k + (2 * N + 2) ≤ fuel →
      (drainLoop N ready slots idx opn t acc fuel).isSome := by
  intro k
  induction k with
  | zero =>
    intro fuel slots idx opn t acc hidx hT hfuel
    exact drainLoop_term_ready N ready hN fuel slots idx opn t acc
      (fun i t' ht' => hready i t' (by omega)) hidx
      (by have := drainMu_le N idx opn hidx; omega)
  | succ m ih =>
    intro fuel slots idx opn t acc hidx hT hfuel
    obtain ⟨f, rfl⟩ : ∃ f, fuel = f + 1 := ⟨fuel - 1, by omega⟩
    rw [drainLoop]
    split
    · simp
    · rename_i hterm
      have hidx' : (idx + 1) % N < N := Nat.mod_lt _ (by omega)
      split
      · rename_i a hg
        split
        · exact ih f _ _ _ _ _ hidx' (by omega) (by omega)
        · exact ih f _ _ _ _ _ hidx' (by omega) (by omega)
      · exact ih f _ _ _ _ _ hidx' (by omega) (by omega)

/-- **C4.** For worker count `N > 1`, once the enumerator is exhausted and
every in-flight job eventually completes (from clock `T` on, every poll
reports ready), the drain loop terminates and records exactly one result for
every job still in flight — the recorded results are, as a multiset, exactly
the contents of the occupied slots — while slots that never held a job
contribute nothing (skipped silently, no result and no error). -/
theorem drain_all_complete {α : Type} (N T : ℕ) (ready : ℕ → ℕ → Bool)
    (slots : List (Option α)) (idx : ℕ) (hN : 1 < N)
    (hlen : slots.length = N) (hidx : idx < N)
    (hready : ∀ i t, T ≤ t → ready t i = true) :
    ∃ out, drainLoop N ready slots idx 0 0 [] (T + (2 * N + 2)) = some out ∧
      (out : Multiset α) = (slots.filterMap id : Multiset α) := by
  have hsome := drainLoop_term N ready T hN hready T (T + (2 * N + 2))
    slots idx 0 0 [] hidx (by omega) (by omega)
  obtain ⟨out, hout⟩ := Option.isSome_iff_exists.mp hsome
  refine ⟨out, hout, ?_⟩
  have hInv : DrainInv N slots idx 0 := by
    refine ⟨hlen, hidx, ?_⟩
    by_cases h0 : idx = 0
    · subst h0
      rw [if_pos rfl]
      exact ⟨by omega, fun h => by omega⟩
    · rw [if_neg h0]
      exact ⟨by omega, fun h => by omega⟩
  have := drainLoop_some_multiset N ready hN (T + (2 * N + 2)) slots idx 0 0
    [] out hout hInv
  simpa using this

/-- Witness for C4: slot 0 is in flight, slot 1 was never populated. -/
theorem drain_all_complete_witness :
    (1 < 2 ∧ ([some 5, none] : List (Option ℕ)).length = 2 ∧ 0 < 2) ∧
      ∃ out, drainLoop 2 (fun _ _ => true) ([some 5, none] : List (Option ℕ))
          0 0 0 [] (0 + (2 * 2 + 2)) = some out ∧
        (out : Multiset ℕ) =
          (([some 5, none] : List (Option ℕ)).filterMap id : Multiset ℕ) :=
  ⟨⟨by decide, by decide, by decide⟩,
    drain_all_complete 2 0 (fun _ _ => true) [some 5, none] 0 (by decide)
      (by decide) (by decide) (fun _ _ _ => rfl)⟩

/-! ## The `:` range operator of the spec parser

    double val, lim, inc;
    if( !(fin >> val >> lim >> inc) || inc == 0 ) throw 2;
    lim += inc / 256; //small compinsation for floating point error
    while( (inc > 0 && val < lim) || (inc < 0 && val > lim) ) {
      vec.push_back(val);
      val += inc;
    }

Doubles are modelled as exact rationals; the unbounded `while` gets fuel. -/

def rangeVals (val lim inc : ℚ) (fuel : ℕ) : List ℚ :=
  match fuel with
  | 0 => []
  | f + 1 =>
    if (0 < inc ∧ val < lim) ∨ (inc < 0 ∧ lim < val) then
      val :: rangeVals (val + inc) lim inc f
    else []

/-- The whole `:` operator: the tolerance `inc / 256` is added to the limit
before the loop runs. -/
def rangeOp (start lim inc : ℚ) (fuel : ℕ) : List ℚ :=
  rangeVals start (lim + inc / 256) inc fuel

theorem rangeVals_asc_len {inc lim' : ℚ} (hinc : 0 < inc) :
    ∀ (fuel : ℕ) (start : ℚ), ¬(start + (fuel : ℚ) * inc < lim') →
      ∀ i : ℕ, i < (rangeVals start lim' inc fuel).length ↔
        start + (i : ℚ) * inc < lim' := by
  intro fuel
  induction fuel with
  | zero =>
    intro start hstop i
    have hge : lim' ≤ start := by
      push_cast at hstop
      linarith [not_lt.mp hstop]
    have hnot : ¬(start + (i : ℚ) * inc < lim') := by
      have h0 : (0 : ℚ) ≤ (i : ℚ) * inc :=
        mul_nonneg (Nat.cast_nonneg i) hinc.le
      push_neg
      linarith
    simp only [rangeVals, List.length_nil]
    exact ⟨fun h => absurd h (by omega), fun h => absurd h hnot⟩
  | succ f ihf =>
    intro start hstop i
    rw [rangeVals]
    by_cases hs : start < lim'
    · rw [if_pos (Or.inl ⟨hinc, hs⟩)]
      have hstop' : ¬(start + inc + (f : ℚ) * inc < lim') := by
        intro hcontra
        apply hstop
        push_cast
        linarith
      have ihr := ihf (start + inc) hstop'
      cases i with
      | zero =>
        simp only [List.length_cons, Nat.cast_zero, zero_mul, add_zero]
        exact ⟨fun _ => hs, fun _ => by omega⟩
      | succ j =>
        have hj := ihr j
        rw [List.length_cons]
        have heq : start + ((j + 1 : ℕ) : ℚ) * inc =
            start + inc + (j : ℚ) * inc := by push_cast; ring
        rw [heq]
        exact ⟨fun h => hj.mp (by omega), fun h => by
          have := hj.mpr h; omega⟩
    · rw [if_neg (by push_neg; exact ⟨fun _ => not_lt.mp hs, fun hneg =>
        absurd hinc (by linarith)⟩)]
      have hnot : ¬(start + (i : ℚ) * inc < lim') := by
        have h0 : (0 : ℚ) ≤ (i : ℚ) * inc :=
          mul_nonneg (Nat.cast_nonneg i) hinc.le
        push_neg
        linarith [not_lt.mp hs]
      simp only [List.length_nil]
      exact ⟨fun h => absurd h (by omega), fun h => absurd h hnot⟩

theorem rangeVals_getD {inc lim' : ℚ} :
    ∀ (fuel : ℕ) (start : ℚ) (i : ℕ),
      i < (rangeVals start lim' inc fuel).length →
      (rangeVals start lim' inc fuel).getD i 0 = start + (i : ℚ) * inc := by
  intro fuel
  induction fuel with
  | zero => intro start i h; simp [rangeVals] at h
  | succ f ihf =>
    intro start i h
    rw [rangeVals] at h ⊢
    by_cases hs : (0 < inc ∧ start < lim') ∨ (inc < 0 ∧ lim' < start)
    · rw [if_pos hs] at h ⊢
      cases i with
      | zero => simp
      | succ j =>
        rw [List.length_cons] at h
        have := ihf (start + inc) j (by omega)
        rw [List.getD_cons_succ, this]
        push_cast
        ring
    · rw [if_neg hs] at h
      simp at h

theorem rangeVals_desc_len {inc lim' : ℚ} (hinc : inc < 0) :
    ∀ (fuel : ℕ) (start : ℚ), ¬(lim' < start + (fuel : ℚ) * inc) →
      ∀ i : ℕ, i < (rangeVals start lim' inc fuel).length ↔
        lim' < start + (i : ℚ) * inc := by
  intro fuel
  induction fuel with
  | zero =>
    intro start hstop i
    have hge : start ≤ lim' := by
      push_cast at hstop
      linarith [not_lt.mp hstop]
    have hnot : ¬(lim' < start + (i : ℚ) * inc) := by
      have h0 : (i : ℚ) * inc ≤ 0 :=
        mul_nonpos_of_nonneg_of_nonpos (Nat.cast_nonneg i) hinc.le
      push_neg
      linarith
    simp only [rangeVals, List.length_nil]
    exact ⟨fun h => absurd h (by omega), fun h => absurd h hnot⟩
  | succ f ihf =>
    intro start hstop i
    rw [rangeVals]
    by_cases hs : lim' < start
    · rw [if_pos (Or.inr ⟨hinc, hs⟩)]
      have hstop' : ¬(lim' < start + inc + (f : ℚ) * inc) := by
        intro hcontra
        apply hstop
        push_cast
        linarith
      have ihr := ihf (start + inc) hstop'
      cases i with
      | zero =>
        simp only [List.length_cons, Nat.cast_zero, zero_mul, add_zero]
        exact ⟨fun _ => hs, fun _ => by omega⟩
      | succ j =>
        have hj := ihr j
        rw [List.length_cons]
        have heq : start + ((j + 1 : ℕ) : ℚ) * inc =
            start + inc + (j : ℚ) * inc := by push_cast; ring
        rw [heq]
        exact ⟨fun h => hj.mp (by omega), fun h => by
          have := hj.mpr h; omega⟩
    · rw [if_neg (by push_neg; exact ⟨fun hpos =>
        absurd hinc (by linarith), fun _ => not_lt.mp hs⟩)]
      have hnot : ¬(lim' < start + (i : ℚ) * inc) := by
        have h0 : (i : ℚ) * inc ≤ 0 :=
          mul_nonpos_of_nonneg_of_nonpos (Nat.cast_nonneg i) hinc.le
        push_neg
        linarith [not_lt.mp hs]
      simp only [List.length_nil]
      exact ⟨fun h => absurd h (by omega), fun h => absurd h hnot⟩

/-- **C5.** The `: start limit step` operator (step nonzero) produces the
arithmetic progression `start, start + step, ...` continuing exactly while the
value stays within `limit` plus the tolerance `step / 256` — strictly below it
for an ascending step, strictly above it for a descending step; element `i` is
`start + i * step`.  In particular `kT : 1 5 1` yields `[1,2,3,4,5]` (endpoint
included) and `kT : 5 1 -1` yields `[5,4,3,2,1]`. -/
theorem range_op_spec (start lim inc : ℚ) (fuel : ℕ) :
    (0 < inc → ¬(start + (fuel : ℚ) * inc < lim + inc / 256) →
      ∀ i : ℕ, (i < (rangeOp start lim inc fuel).length ↔
          start + (i : ℚ) * inc < lim + inc / 256) ∧
        (i < (rangeOp start lim inc fuel).length →
          (rangeOp start lim inc fuel).getD i 0 = start + (i : ℚ) * inc)) ∧
      (inc < 0 → ¬(lim + inc / 256 < start + (fuel : ℚ) * inc) →
        ∀ i : ℕ, (i < (rangeOp start lim inc fuel).length ↔
            lim + inc / 256 < start + (i : ℚ) * inc) ∧
          (i < (rangeOp start lim inc fuel).length →
            (rangeOp start lim inc fuel).getD i 0 = start + (i : ℚ) * inc)) ∧
      rangeOp 1 5 1 6 = [1, 2, 3, 4, 5] ∧
      rangeOp 5 1 (-1) 6 = [5, 4, 3, 2, 1] := by
  refine ⟨?_, ?_, ?_, ?_⟩
  · intro hinc hstop i
    exact ⟨rangeVals_asc_len hinc fuel start hstop i,
      rangeVals_getD fuel start i⟩
  · intro hinc hstop i
    exact ⟨rangeVals_desc_len hinc fuel start hstop i,
      rangeVals_getD fuel start i⟩
  · norm_num [rangeOp, rangeVals]
  · norm_num [rangeOp, rangeVals]

/-- Witness for C5 at `kT : 1 5 1` with fuel `6`, sampling element `2`. -/
theorem range_op_spec_witness :
    ((0 : ℚ) < 1 ∧ ¬((1 : ℚ) + ((6 : ℕ) : ℚ) * 1 < 5 + 1 / 256)) ∧
      ((2 < (rangeOp 1 5 1 6).length ↔
          (1 : ℚ) + ((2 : ℕ) : ℚ) * 1 < 5 + 1 / 256) ∧
        (2 < (rangeOp 1 5 1 6).length →
          (rangeOp 1 5 1 6).getD 2 0 = 1 + ((2 : ℕ) : ℚ) * 1)) ∧
      rangeOp 1 5 1 6 = [1, 2, 3, 4, 5] ∧
      rangeOp 5 1 (-1) 6 = [5, 4, 3, 2, 1] := by
  have h := range_op_spec 1 5 1 6
  exact ⟨⟨by norm_num, by norm_num⟩,
    h.1 (by norm_num) (by norm_num) 2, h.2.2.1, h.2.2.2⟩

/-! ## Result journal (`recordData`)

The lambda `recordData` builds one `<data>` node (timestamp, every resolved
parameter, every observable, per-site snapshot), appends it to the XML root
(`root->append_node(data);`), then persists:

    fout.close();
    fout.open( filename, ios::out | ios::trunc );
    fout << doc << flush;

We model the root's ordered child list as `List ν` (the preamble nodes followed
by earlier `<data>` records), the serializer `rapidxml::print` as an abstract
`render`, and the destination file as a character list that `truncWrite`
replaces wholesale. -/

def truncWrite (content oldFile : List Char) : List Char := content

def recordData {ν : Type} (render : List ν → List Char) (doc : List ν) (d : ν)
    (file : List Char) : List ν × List Char :=
  let doc' := doc ++ [d]
  (doc', truncWrite (render doc') file)

/-- **C8.** Appending a completed job's record inserts exactly one new record
immediately after the previous one, leaves the preamble and every previously
appended record unchanged (the old children are a prefix, no reordering or
removal), and persists by truncating the destination file and rewriting the
serialization of the entire report — the resulting file depends only on the new
report content, never on the file's previous content. -/
theorem recordData_append_rewrite {ν : Type} (render : List ν → List Char)
    (doc : List ν) (d : ν) (file file' : List Char) :
    (recordData render doc d file).1 = doc ++ [d] ∧
      ((recordData render doc d file).1).take doc.length = doc ∧
      ((recordData render doc d file).1).length = doc.length + 1 ∧
      (recordData render doc d file).2 =
        render ((recordData render doc d file).1) ∧
      (recordData render doc d file).2 = (recordData render doc d file').2 := by
  refine ⟨rfl, ?_, by simp [recordData], rfl, rfl⟩
  simp [recordData]

/-! ## Per-job spin overrides inside `algorithm`

    for (const Spin &s : info.spins) {  // custom spins
      try {
        Vector vec = msd.getSpin(s.x, s.y, s.z);
        vec = Vector::sphericalForm(s.norm, vec.theta(), vec.phi());
        msd.setSpin(s.x, s.y, s.z, vec);
      } catch(out_of_range &ex) {
        cerr << "Warning: couldn't set spin [" << s.x << " " << s.y ...
      }
    }

The `MSD` engine itself lives in `MSD.h`, which is not part of the given
source tree, so its contract is modelled from the spec. -/

/-- A per-site spin vector of the engine. -/
structure Vec3 where
  x : ℚ
  y : ℚ
  z : ℚ

/-- A custom spin override from the spec file (C++ `struct Spin`). -/
structure Spin where
  x : ℕ
  y : ℕ
  z : ℕ
  norm : ℚ

/-- Modelled from the spec: the MSD engine (external collaborator, `MSD.h` not
in the given sources) addresses real lattice sites by coordinates and "must
report an out-of-range condition (not fatal to the whole run) if a coordinate
does not address a real site"; `sites` gives the spin vector of each real site
and `none` where no site exists. -/
structure MSDState where
  sites : ℕ × ℕ × ℕ → Option Vec3

/-- Modelled from the spec: `msd.getSpin(x, y, z)` returns the spin of a real
site and raises `out_of_range` (here `none`) otherwise. -/
def getSpin (m : MSDState) (x y z : ℕ) : Option Vec3 := m.sites (x, y, z)

/-- Modelled from the spec: `msd.setSpin(x, y, z, v)` replaces the spin of an
existing real site; it never creates a site. -/
def setSpin (m : MSDState) (x y z : ℕ) (v : Vec3) : MSDState :=
  ⟨fun c => if c = (x, y, z) then (m.sites c).map (fun _ => v) else m.sites c⟩

/-- The warning printed by the `catch` block, identifying the offending
coordinate and the requested norm. -/
structure SpinWarning where
  x : ℕ
  y : ℕ
  z : ℕ
  norm : ℚ

/-- The custom-spins loop of `algorithm`.  `setNorm` abstracts
`Vector::sphericalForm(s.norm, vec.theta(), vec.phi())` (external engine
math): the new vector computed from the requested norm and the old vector. -/
def applySpins (setNorm : ℚ → Vec3 → Vec3) :
    MSDState → List Spin → MSDState × List SpinWarning
  | m, [] => (m, [])
  | m, s :: rest =>
    match getSpin m s.x s.y s.z with
    | some vec =>
      applySpins setNorm (setSpin m s.x s.y s.z (setNorm s.norm vec)) rest
    | none =>
      let r := applySpins setNorm m rest
      (r.1, ⟨s.x, s.y, s.z, s.norm⟩ :: r.2)

theorem setSpin_none {m : MSDState} {c : ℕ × ℕ × ℕ} (x y z : ℕ) (v : Vec3)
    (h : m.sites c = none) : (setSpin m x y z v).sites c = none := by
  unfold setSpin
  by_cases hc : c = (x, y, z)
  · simp [hc, hc ▸ h]
  · simp [hc, h]

theorem applySpins_none (setNorm : ℚ → Vec3 → Vec3) :
    ∀ (l : List Spin) (m : MSDState) (c : ℕ × ℕ × ℕ), m.sites c = none →
      (applySpins setNorm m l).1.sites c = none := by
  intro l
  induction l with
  | nil => intro m c h; exact h
  | cons s rest ih =>
    intro m c h
    rw [applySpins]
    rcases hg : getSpin m s.x s.y s.z with _ | vec
    · exact ih m c h
    · exact ih _ c (setSpin_none _ _ _ _ h)

theorem applySpins_append (setNorm : ℚ → Vec3 → Vec3) :
    ∀ (l1 l2 : List Spin) (m : MSDState),
      applySpins setNorm m (l1 ++ l2) =
        ((applySpins setNorm (applySpins setNorm m l1).1 l2).1,
          (applySpins setNorm m l1).2 ++
            (applySpins setNorm (applySpins setNorm m l1).1 l2).2) := by
  intro l1
  induction l1 with
  | nil => intro l2 m; simp [applySpins]
  | cons s rest ih =>
    intro l2 m
    rw [List.cons_append, applySpins, applySpins]
    rcases hg : getSpin m s.x s.y s.z with _ | vec
    · rw [ih l2 m]
      simp
    · exact ih l2 _

/-- **C9.** A spin override addressing a coordinate with no real lattice site
logs a warning identifying the offending coordinate (and requested norm), skips
only that override, and the rest of the job proceeds normally: the engine state
after the spin loop — and hence the job's result, for any engine run — is
identical to the one computed from the same configuration without that
override, and the warning list differs only by that one entry. -/
theorem bad_spin_override_skipped {ρ : Type} (setNorm : ℚ → Vec3 → Vec3)
    (engineRun : MSDState → ρ) (m : MSDState) (pre post : List Spin) (s : Spin)
    (hmiss : m.sites (s.x, s.y, s.z) = none) :
    (applySpins setNorm m (pre ++ s :: post)).1 =
        (applySpins setNorm m (pre ++ post)).1 ∧
      engineRun (applySpins setNorm m (pre ++ s :: post)).1 =
        engineRun (applySpins setNorm m (pre ++ post)).1 ∧
      (applySpins setNorm m (pre ++ s :: post)).2 =
        (applySpins setNorm m pre).2 ++
          ⟨s.x, s.y, s.z, s.norm⟩ ::
            (applySpins setNorm (applySpins setNorm m pre).1 post).2 ∧
      (applySpins setNorm m (pre ++ post)).2 =
        (applySpins setNorm m pre).2 ++
          (applySpins setNorm (applySpins setNorm m pre).1 post).2 := by
  have hmid : (applySpins setNorm m pre).1.sites (s.x, s.y, s.z) = none :=
    applySpins_none setNorm pre m _ hmiss
  have hskip : applySpins setNorm (applySpins setNorm m pre).1 (s :: post) =
      ((applySpins setNorm (applySpins setNorm m pre).1 post).1,
        ⟨s.x, s.y, s.z, s.norm⟩ ::
          (applySpins setNorm (applySpins setNorm m pre).1 post).2) := by
    rw [applySpins]
    rw [show getSpin (applySpins setNorm m pre).1 s.x s.y s.z = none from hmid]
  have h1 := applySpins_append setNorm pre (s :: post) m
  have h2 := applySpins_append setNorm pre post m
  rw [h1, h2, hskip]
  refine ⟨rfl, rfl, rfl, rfl⟩

/-- Witness for C9: the claim's example, override `[0 0 0] = 2.5` on a lattice
with no site at `(0, 0, 0)`. -/
theorem bad_spin_override_skipped_witness :
    ((MSDState.mk fun _ => none).sites (0, 0, 0) = none) ∧
      ((applySpins (fun _ v => v) (MSDState.mk fun _ => none)
            ([] ++ ⟨0, 0, 0, 5 / 2⟩ :: [])).1 =
          (applySpins (fun _ v => v) (MSDState.mk fun _ => none)
            ([] ++ [])).1 ∧
        (fun st : MSDState => (0 : ℕ))
            (applySpins (fun _ v => v) (MSDState.mk fun _ => none)
              ([] ++ ⟨0, 0, 0, 5 / 2⟩ :: [])).1 =
          (fun st : MSDState => (0 : ℕ))
            (applySpins (fun _ v => v) (MSDState.mk fun _ => none)
              ([] ++ [])).1 ∧
        (applySpins (fun _ v => v) (MSDState.mk fun _ => none)
            ([] ++ ⟨0, 0, 0, 5 / 2⟩ :: [])).2 =
          (applySpins (fun _ v => v) (MSDState.mk fun _ => none) []).2 ++
            ⟨0, 0, 0, 5 / 2⟩ ::
              (applySpins (fun _ v => v)
                (applySpins (fun _ v => v) (MSDState.mk fun _ => none) []).1
                []).2 ∧
        (applySpins (fun _ v => v) (MSDState.mk fun _ => none)
            ([] ++ [])).2 =
          (applySpins (fun _ v => v) (MSDState.mk fun _ => none) []).2 ++
            (applySpins (fun _ v => v)
              (applySpins (fun _ v => v) (MSDState.mk fun _ => none) []).1
              []).2) :=
  ⟨rfl, bad_spin_override_skipped (fun _ v => v) (fun _ => (0 : ℕ))
    (MSDState.mk fun _ => none) [] [] ⟨0, 0, 0, 5 / 2⟩ rfl⟩

/-! ## The spec-file parser (the `initialize parameters from file` block)

The input is modelled pre-tokenized: C++ `fin >> string` yields a token's
`text`; `fin >> double` yields its numeric reading `val` when the token parses
as a number (istream's lexical layer is abstracted into the token).  Newlines
are kept as separate stream items because the comment branch uses `getline`;
`>>` skips them.  A failed formatted extraction leaves the failing token in
the stream.

Divergence notes (pathological inputs only, no claim depends on them): a
failed read inside the spin-override branch puts the real `istream` into a
fail state and leaves stale variable contents, after which the original ends
up at `throw 21` or silently ends the parse; every such failure is modelled
as `PErr.spinErr`. -/

structure Tok where
  text : List Char
  val : Option ℚ

inductive Item where
  | tk (t : Tok)
  | nl

/-- `fin >> token`: skip newlines, return the next token and the rest. -/
def nextTok : List Item → Option (Tok × List Item)
  | [] => none
  | Item.nl :: rest => nextTok rest
  | Item.tk t :: rest => some (t, rest)

/-- `getline`: drop the remainder of the current line. -/
def skipLine : List Item → List Item
  | [] => []
  | Item.nl :: rest => rest
  | Item.tk _ :: rest => skipLine rest

/-- The classified errors thrown by the parse block (`throw <int>`), plus the
fuel-exhaustion artifact of the embedding.  The size-mismatch error carries
the data printed to `cerr` before `throw 7`: the offending key, its label, and
both lengths. -/
inductive PErr where
  | fuelOut
  | stream
  | range
  | listTerm
  | label2
  | eqVal
  | emptyList
  | sizeMismatch (key lbl : List Char) (newSize oldSize : ℕ)
  | spinErr
deriving DecidableEq

/-- The integer thrown for each error (`throw 1` … `throw 7`, `throw 21`). -/
def PErr.code : PErr → ℕ
  | .fuelOut => 0
  | .stream => 1
  | .range => 2
  | .listTerm => 3
  | .label2 => 4
  | .eqVal => 5
  | .emptyList => 6
  | .sizeMismatch _ _ _ _ => 7
  | .spinErr => 21

/-- The parser's global tables.  The C++ `std::map`s are modelled as
association lists with update-or-append semantics; only lookup and membership
matter to the driver (`iters` is walked for materialization, where order is
irrelevant, and the odometer advance walks `labelNames`). -/
structure PState where
  p : List (List Char × List ℚ)
  labelNames : List (List Char)
  labelMap : List (List Char × List (List Char))
  labelMapInv : List (List Char × List Char)
  iters : List (List Char × ℕ)
  iterLengths : List (List Char × ℕ)
  spins : List Spin

def initPState : PState := ⟨[], [], [], [], [], [], []⟩

def alookup {β : Type} (k : List Char) : List (List Char × β) → Option β
  | [] => none
  | (k', v) :: rest => if k' = k then some v else alookup k rest

def aset {β : Type} (k : List Char) (v : β) :
    List (List Char × β) → List (List Char × β)
  | [] => [(k, v)]
  | (k', v') :: rest =>
    if k' = k then (k', v) :: rest else (k', v') :: aset k v rest

/-- `std::set<string>::insert`. -/
def insertName (k : List Char) (s : List (List Char)) : List (List Char) :=
  if k ∈ s then s else s ++ [k]

def lbrace : Char := Char.ofNat 123
def rbrace : Char := Char.ofNat 125

/-- The table updates after an entry's do-while loop finishes (source order:
`p[key] = vec`, guarded `labelNames.push_back`, `labelMap[lbl].insert(key)`,
`labelMapInv[key] = lbl`, `iters[lbl] = 0`, then the `iterLengths` consistency
check that throws 7 on a label-length mismatch). -/
def entryCommit (st : PState) (key : List Char) (vec : List ℚ)
    (lbl0 : List Char) : Except PErr PState :=
  let lbl := if lbl0.length = 0 then key else lbl0
  let st1 := { st with p := aset key vec st.p }
  let st2 :=
    if (alookup lbl st1.labelMap).isNone then
      { st1 with labelNames := st1.labelNames ++ [lbl] }
    else st1
  let lm3 := aset lbl (insertName key ((alookup lbl st2.labelMap).getD []))
    st2.labelMap
  let st3 := { st2 with labelMap := lm3 }
  let st4 := { st3 with labelMapInv := aset key lbl st3.labelMapInv }
  let st5 := { st4 with iters := aset lbl 0 st4.iters }
  match alookup lbl st5.iterLengths with
  | none =>
    Except.ok { st5 with iterLengths := aset lbl vec.length st5.iterLengths }
  | some n =>
    if n = vec.length then Except.ok st5
    else Except.error (PErr.sizeMismatch key lbl vec.length n)

/-- The `{` operator's value loop, `while (fin >> val) vec.push_back(val);`:
consume tokens as long as they read as doubles; the first non-numeric token is
left in the stream (`fin.clear()`). -/
def takeNums : ℕ → List Item → List ℚ × List Item
  | 0, items => ([], items)
  | f + 1, items =>
    match nextTok items with
    | some (t, rest) =>
      match t.val with
      | some q =>
        let r := takeNums f rest
        (q :: r.1, r.2)
      | none => ([], items)
    | none => ([], items)

/-- One parameter entry's `do { ... } while (vec.size() <= 0)` loop, given the
values `vec` and label `lbl` accumulated so far.  Returns the value list, the
label (empty = none given), and the rest of the stream. -/
def parseEntry : ℕ → List Item → List ℚ → List Char →
    Except PErr (List ℚ × List Char × List Item)
  | 0, _, _, _ => Except.error PErr.fuelOut
  | f + 1, items, vec, lbl =>
    match nextTok items with
    | none => Except.error PErr.stream
    | some (t, rest) =>
      if t.text = ['='] then
        match nextTok rest with
        | some (v, rest2) =>
          match v.val with
          | some q =>
            if (vec ++ [q]).length = 0 then parseEntry f rest2 (vec ++ [q]) lbl
            else Except.ok (vec ++ [q], lbl, rest2)
          | none => Except.error PErr.eqVal
        | none => Except.error PErr.eqVal
      else if t.text = [':'] then
        match nextTok rest with
        | some (v1, r1) =>
          match v1.val with
          | some val =>
            match nextTok r1 with
            | some (v2, r2) =>
              match v2.val with
              | some lim =>
                match nextTok r2 with
                | some (v3, r3) =>
                  match v3.val with
                  | some inc =>
                    if inc = 0 then Except.error PErr.range
                    else
                      if (vec ++ rangeOp val lim inc f).length = 0 then
                        parseEntry f r3 (vec ++ rangeOp val lim inc f) lbl
                      else Except.ok (vec ++ rangeOp val lim inc f, lbl, r3)
                  | none => Except.error PErr.range
                | none => Except.error PErr.range
              | none => Except.error PErr.range
            | none => Except.error PErr.range
          | none => Except.error PErr.range
        | none => Except.error PErr.range
      else if t.text = [lbrace] then
        match nextTok (takeNums f rest).2 with
        | some (u, rest2) =>
          if u.text = [rbrace] then
            if (vec ++ (takeNums f rest).1).length = 0 then
              Except.error PErr.emptyList
            else Except.ok (vec ++ (takeNums f rest).1, lbl, rest2)
          else Except.error PErr.listTerm
        | none => Except.error PErr.listTerm
      else if lbl.length = 0 then
        if vec.length = 0 then parseEntry f rest vec t.text
        else Except.ok (vec, t.text, rest)
      else Except.error PErr.label2

def isDigitCh (c : Char) : Bool := decide ('0' ≤ c) && decide (c ≤ '9')

def digitsVal (cs : List Char) : ℕ :=
  cs.foldl (fun a c => 10 * a + (c.toNat - 48)) 0

/-- `istringstream >> unsigned` on raw characters: the longest digit prefix
(stopping at e.g. `]`), failing if there is none. -/
def readNatChars (cs : List Char) : Option ℕ :=
  let ds := cs.takeWhile isDigitCh
  if ds.length = 0 then none else some (digitsVal ds)

/-- `fin >> unsigned` on a token. -/
def readNatTok (t : Tok) : Option ℕ :=
  match t.val with
  | some q => if q.den = 1 ∧ 0 ≤ q.num then some q.num.toNat else none
  | none => none

/-- The spin-override branch, `[x y z] = norm`: `x` comes from the key's own
characters after `[` when present, else from the next token; `z`'s token may
carry the closing `]`. -/
def parseSpin (key : Tok) (items : List Item) :
    Except PErr (Spin × List Item) :=
  let xr : Option (ℕ × List Item) :=
    if key.text.length > 1 then
      (readNatChars (key.text.drop 1)).map (fun x => (x, items))
    else
      match nextTok items with
      | some (t, rest) => (readNatTok t).map (fun x => (x, rest))
      | none => none
  match xr with
  | none => Except.error PErr.spinErr
  | some (x, items1) =>
    match nextTok items1 with
    | none => Except.error PErr.spinErr
    | some (ty, items2) =>
      match readNatTok ty with
      | none => Except.error PErr.spinErr
      | some y =>
        match nextTok items2 with
        | none => Except.error PErr.spinErr
        | some (tz, items3) =>
          let ztext := if tz.text.getLast? = some ']' then tz.text.dropLast
            else tz.text
          match readNatChars ztext with
          | none => Except.error PErr.spinErr
          | some z =>
            match nextTok items3 with
            | none => Except.error PErr.spinErr
            | some (te, items4) =>
              if te.text = ['='] then
                match nextTok items4 with
                | none => Except.error PErr.spinErr
                | some (tn, items5) =>
                  match tn.val with
                  | some norm => Except.ok (⟨x, y, z, norm⟩, items5)
                  | none => Except.error PErr.spinErr
              else Except.error PErr.spinErr

/-- The top loop `while (fin >> key)`: comments, spin overrides, or parameter
entries, until the stream is exhausted (parse succeeds) or a `throw` aborts
it. -/
def parseLoop : ℕ → List Item → PState → Except PErr PState
  | 0, _, _ => Except.error PErr.fuelOut
  | f + 1, items, st =>
    match nextTok items with
    | none => Except.ok st
    | some (key, rest) =>
      if key.text.head? = some '#' then
        parseLoop f (skipLine rest) st
      else if key.text.head? = some '[' then
        match parseSpin key rest with
        | Except.ok (spin, rest2) =>
          parseLoop f rest2 { st with spins := st.spins ++ [spin] }
        | Except.error e => Except.error e
      else
        match parseEntry f rest [] [] with
        | Except.ok (vec, lbl, rest2) =>
          match entryCommit st key.text vec lbl with
          | Except.ok st2 => parseLoop f rest2 st2
          | Except.error e => Except.error e
        | Except.error e => Except.error e

/-- The driver's spec-file stage: on a parse error the `catch(int e)` block
returns `e |= 0x10` and the process exits before any job runs; on success the
enumerator is driven over the parsed labels. -/
def runMain (fuel : ℕ) (items : List Item) : Except ℕ (List (List ℕ)) :=
  match parseLoop fuel items initPState with
  | Except.error e => Except.error (e.code ||| 16)
  | Except.ok st =>
    Except.ok (enumRun
      (st.labelNames.map fun l => (alookup l st.iterLengths).getD 0)
      (st.labelNames.map fun _ => 0) true fuel)

theorem ite_iterLengths (c : Prop) [Decidable c] (a b : PState) :
    (if c then a else b).iterLengths =
      if c then a.iterLengths else b.iterLengths :=
  apply_ite _ _ _ _

theorem ite_p (c : Prop) [Decidable c] (a b : PState) :
    (if c then a else b).p = if c then a.p else b.p :=
  apply_ite _ _ _ _

theorem mem_aset {β : Type} :
    ∀ (l : List (List Char × β)) (k : List Char) (v : β)
      (kv : List Char × β), kv ∈ aset k v l → kv ∈ l ∨ kv = (k, v) := by
  intro l
  induction l with
  | nil =>
    intro k v kv h
    simp only [aset, List.mem_singleton] at h
    exact Or.inr h
  | cons x rest ih =>
    intro k v kv h
    obtain ⟨k', v'⟩ := x
    rw [aset] at h
    by_cases hk : k' = k
    · rw [if_pos hk] at h
      rcases List.mem_cons.mp h with rfl | hm
      · exact Or.inr (by rw [hk])
      · exact Or.inl (List.mem_cons_of_mem _ hm)
    · rw [if_neg hk] at h
      rcases List.mem_cons.mp h with rfl | hm
      · exact Or.inl (List.mem_cons_self _ _)
      · rcases ih k v kv hm with h1 | h2
        · exact Or.inl (List.mem_cons_of_mem _ h1)
        · exact Or.inr h2

theorem entryCommit_fields (st : PState) (key : List Char) (vec : List ℚ)
    (lbl0 : List Char) (st2 : PState)
    (h : entryCommit st key vec lbl0 = Except.ok st2) :
    st2.p = aset key vec st.p ∧
      (st2.iterLengths = st.iterLengths ∨
        st2.iterLengths =
          aset (if lbl0.length = 0 then key else lbl0) vec.length
            st.iterLengths) := by
  simp only [entryCommit, ite_iterLengths, ite_p, ite_self] at h
  split at h
  · simp only [Except.ok.injEq] at h
    subst h
    constructor
    · simp [ite_p, ite_self]
    · right
      simp [ite_iterLengths, ite_self]
  · split at h
    · simp only [Except.ok.injEq] at h
      subst h
      constructor
      · simp [ite_p, ite_self]
      · left
        simp [ite_iterLengths, ite_self]
    · exact absurd h (by simp)

theorem entryCommit_inv (st : PState) (key : List Char) (vec : List ℚ)
    (lbl0 : List Char) (st2 : PState)
    (h : entryCommit st key vec lbl0 = Except.ok st2) (hvec : vec ≠ [])
    (hp : ∀ kv ∈ st.p, kv.2 ≠ []) (hil : ∀ kv ∈ st.iterLengths, 0 < kv.2) :
    (∀ kv ∈ st2.p, kv.2 ≠ []) ∧ ∀ kv ∈ st2.iterLengths, 0 < kv.2 := by
  obtain ⟨hP, hIL⟩ := entryCommit_fields st key vec lbl0 st2 h
  constructor
  · intro kv hkv
    rw [hP] at hkv
    rcases mem_aset _ _ _ _ hkv with hm | rfl
    · exact hp kv hm
    · exact hvec
  · intro kv hkv
    rcases hIL with hsame | hnew
    · rw [hsame] at hkv
      exact hil kv hkv
    · rw [hnew] at hkv
      rcases mem_aset _ _ _ _ hkv with hm | rfl
      · exact hil kv hm
      · simpa [List.length_pos] using hvec

theorem parseEntry_ok_nonempty :
    ∀ (fuel : ℕ) (items : List Item) (vec : List ℚ) (lbl : List Char)
      (vec' : List ℚ) (lbl' : List Char) (rest' : List Item),
      parseEntry fuel items vec lbl = Except.ok (vec', lbl', rest') →
      vec' ≠ [] := by
  intro fuel
  induction fuel with
  | zero =>
    intro items vec lbl vec' lbl' rest' h
    simp [parseEntry] at h
  | succ f ih =>
    intro items vec lbl vec' lbl' rest' h
    rw [parseEntry] at h
    repeat' split at h
    all_goals first
      | exact ih _ _ _ _ _ _ h
      | exact Except.noConfusion h
      | (simp only [Except.ok.injEq, Prod.mk.injEq] at h
         obtain ⟨h1, -, -⟩ := h
         subst h1
         simp_all)

/-- **C10.** The per-entry parse loop only accepts an entry once it has
produced at least one value (an operator yielding zero values, such as a range
whose start already lies outside the limit, keeps the entry's do-while loop
consuming further tokens instead of ending the entry), so after a successful
parse every parameter's value sequence — and hence every label length — is at
least 1. -/
theorem parsed_params_nonempty :
    (∀ (fuel : ℕ) (items : List Item) (vec : List ℚ) (lbl : List Char)
      (vec' : List ℚ) (lbl' : List Char) (rest' : List Item),
      parseEntry fuel items vec lbl = Except.ok (vec', lbl', rest') →
      vec' ≠ []) ∧
    ∀ (fuel : ℕ) (items : List Item) (st st' : PState),
      parseLoop fuel items st = Except.ok st' →
      (∀ kv ∈ st.p, kv.2 ≠ []) → (∀ kv ∈ st.iterLengths, 0 < kv.2) →
      (∀ kv ∈ st'.p, kv.2 ≠ []) ∧ ∀ kv ∈ st'.iterLengths, 0 < kv.2 := by
  refine ⟨parseEntry_ok_nonempty, ?_⟩
  intro fuel
  induction fuel with
  | zero =>
    intro items st st' h
    simp [parseLoop] at h
  | succ f ih =>
    intro items st st' h hp hil
    rw [parseLoop] at h
    split at h
    · simp only [Except.ok.injEq] at h
      subst h
      exact ⟨hp, hil⟩
    · split at h
      · exact ih _ _ _ h hp hil
      · split at h
        · split at h
          · exact ih _ _ _ h hp hil
          · simp at h
        · split at h
          · split at h
            · rename_i x1 vec lbl rest2 hentry x2 st2 hcommit
              have hvec := parseEntry_ok_nonempty _ _ _ _ _ _ _ hentry
              have hinv := entryCommit_inv st _ _ _ _ hcommit hvec hp hil
              exact ih _ _ _ h hinv.1 hinv.2
            · exact Except.noConfusion h
          · exact Except.noConfusion h

/-- Sample stream `kT = 1` for the C10 witness. -/
def sampleItems : List Item :=
  [Item.tk ⟨['k', 'T'], none⟩, Item.tk ⟨['='], none⟩,
    Item.tk ⟨['1'], some 1⟩]

/-- The parser state after `kT = 1`. -/
def sampleState : PState :=
  ⟨[(['k', 'T'], [1])], [['k', 'T']], [(['k', 'T'], [['k', 'T']])],
    [(['k', 'T'], ['k', 'T'])], [(['k', 'T'], 0)], [(['k', 'T'], 1)], []⟩

/-- Witness for C10: parsing `kT = 1` succeeds and every stored parameter and
label length is positive. -/
theorem parsed_params_nonempty_witness :
    (parseLoop 3 sampleItems initPState = Except.ok sampleState ∧
      (∀ kv ∈ initPState.p, kv.2 ≠ []) ∧
      (∀ kv ∈ initPState.iterLengths, 0 < kv.2) ∧
      parseEntry 2 [Item.tk ⟨['='], none⟩, Item.tk ⟨['1'], some 1⟩] [] [] =
        Except.ok ([1], [], [])) ∧
      ((1 : ℚ) :: [] ≠ []) ∧
      (∀ kv ∈ sampleState.p, kv.2 ≠ []) ∧
      ∀ kv ∈ sampleState.iterLengths, 0 < kv.2 := by
  have h2 := parsed_params_nonempty.2 3 sampleItems initPState sampleState rfl
    (by simp [initPState]) (by simp [initPState])
  have h1 := parsed_params_nonempty.1 2
    [Item.tk ⟨['='], none⟩, Item.tk ⟨['1'], some 1⟩] [] [] [1] [] [] rfl
  exact ⟨⟨rfl, by simp [initPState], by simp [initPState], rfl⟩, h1, h2.1,
    h2.2⟩

theorem entryCommit_mismatch (st : PState) (key : List Char) (vec : List ℚ)
    (lbl0 : List Char) (n : ℕ)
    (hlook : alookup (if lbl0.length = 0 then key else lbl0) st.iterLengths =
      some n)
    (hne : n ≠ vec.length) :
    entryCommit st key vec lbl0 =
      Except.error (PErr.sizeMismatch key
        (if lbl0.length = 0 then key else lbl0) vec.length n) := by
  simp only [entryCommit, ite_iterLengths, ite_p, ite_self, hlook]
  rw [if_neg hne]

/-- **C6.** When a parameter entry's label already has a registered length and
the new entry's value sequence has a different length, the parse aborts with
the classified label-length error naming the offending key, the label, and
both lengths (`throw 7`); at the driver level the process exits with code
`0x17 = 23` before any job runs, producing zero configurations. -/
theorem label_size_mismatch_fatal :
    (∀ (st : PState) (key : List Char) (vec : List ℚ) (lbl0 : List Char)
      (n : ℕ),
      alookup (if lbl0.length = 0 then key else lbl0) st.iterLengths =
        some n →
      n ≠ vec.length →
      entryCommit st key vec lbl0 =
        Except.error (PErr.sizeMismatch key
          (if lbl0.length = 0 then key else lbl0) vec.length n)) ∧
    (∀ (f : ℕ) (items : List Item) (st : PState) (key : Tok)
      (rest : List Item) (vec : List ℚ) (lbl : List Char) (rest2 : List Item)
      (n : ℕ),
      nextTok items = some (key, rest) →
      ¬key.text.head? = some '#' →
      ¬key.text.head? = some '[' →
      parseEntry f rest [] [] = Except.ok (vec, lbl, rest2) →
      alookup (if lbl.length = 0 then key.text else lbl) st.iterLengths =
        some n →
      n ≠ vec.length →
      parseLoop (f + 1) items st =
        Except.error (PErr.sizeMismatch key.text
          (if lbl.length = 0 then key.text else lbl) vec.length n)) ∧
    ∀ (fuel : ℕ) (items : List Item) (key lbl : List Char) (m n : ℕ),
      parseLoop fuel items initPState =
        Except.error (PErr.sizeMismatch key lbl m n) →
      runMain fuel items = Except.error 23 := by
  refine ⟨entryCommit_mismatch, ?_, ?_⟩
  · intro f items st key rest vec lbl rest2 n hnext hc1 hc2 hentry hlook hne
    rw [parseLoop]
    simp only [hnext]
    rw [if_neg hc1, if_neg hc2]
    simp only [hentry, entryCommit_mismatch st key.text vec lbl n hlook hne]
  · intro fuel items key lbl m n h
    simp only [runMain, h, PErr.code]
    rfl

/-- The mismatching spec stream `a L = 1  b L { 1 2 }`. -/
def mItems : List Item :=
  [Item.tk ⟨['a'], none⟩, Item.tk ⟨['L'], none⟩, Item.tk ⟨['='], none⟩,
    Item.tk ⟨['1'], some 1⟩,
    Item.tk ⟨['b'], none⟩, Item.tk ⟨['L'], none⟩, Item.tk ⟨[lbrace], none⟩,
    Item.tk ⟨['1'], some 1⟩, Item.tk ⟨['2'], some 2⟩,
    Item.tk ⟨[rbrace], none⟩]

/-- The second entry of `mItems`, starting at its key. -/
def mEntryItems : List Item :=
  [Item.tk ⟨['b'], none⟩, Item.tk ⟨['L'], none⟩, Item.tk ⟨[lbrace], none⟩,
    Item.tk ⟨['1'], some 1⟩, Item.tk ⟨['2'], some 2⟩,
    Item.tk ⟨[rbrace], none⟩]

/-- The parser state after the first entry `a L = 1`. -/
def mState : PState :=
  ⟨[(['a'], [1])], [['L']], [(['L'], [['a']])], [(['a'], ['L'])],
    [(['L'], 0)], [(['L'], 1)], []⟩

/-- Witness for C6: entry `b L { 1 2 }` conflicts with label `L` of
registered length 1. -/
theorem label_size_mismatch_fatal_witness :
    (alookup ['L'] mState.iterLengths = some 1 ∧ (1 : ℕ) ≠ 2 ∧
      parseLoop 10 mItems initPState =
        Except.error (PErr.sizeMismatch ['b'] ['L'] 2 1)) ∧
      entryCommit mState ['b'] [1, 2] ['L'] =
        Except.error (PErr.sizeMismatch ['b'] ['L'] 2 1) ∧
      parseLoop 9 mEntryItems mState =
        Except.error (PErr.sizeMismatch ['b'] ['L'] 2 1) ∧
      runMain 10 mItems = Except.error 23 := by
  refine ⟨⟨rfl, by decide, rfl⟩, ?_, ?_, ?_⟩
  · exact label_size_mismatch_fatal.1 mState ['b'] [1, 2] ['L'] 1 rfl
      (by decide)
  · exact label_size_mismatch_fatal.2.1 8 mEntryItems mState ⟨['b'], none⟩
      (mEntryItems.drop 1) [1, 2] ['L'] [] 1 rfl (by decide) (by decide) rfl
      rfl (by decide)
  · exact label_size_mismatch_fatal.2.2 10 mItems ['b'] ['L'] 2 1 rfl

theorem takeNums_stop (f : ℕ) (rest : List Item) :
    takeNums f (Item.tk ⟨[rbrace], none⟩ :: rest) =
      ([], Item.tk ⟨[rbrace], none⟩ :: rest) := by
  cases f <;> rfl

theorem takeNums_forall2 :
    ∀ (ts : List Tok) (qs : List ℚ) (rest : List Item),
      List.Forall₂ (fun t q => t.val = some q) ts qs →
      takeNums qs.length
          (ts.map Item.tk ++ Item.tk ⟨[rbrace], none⟩ :: rest) =
        (qs, Item.tk ⟨[rbrace], none⟩ :: rest) := by
  intro ts
  induction ts with
  | nil =>
    intro qs rest h
    cases h
    rfl
  | cons t ts ih =>
    intro qs rest h
    cases h with
    | cons ht hrest =>
      rename_i q qs'
      simp only [List.length_cons, List.map_cons, List.cons_append,
        List.append_eq, takeNums, nextTok, ht, ih qs' rest hrest]

/-- **C7.** The explicit-list operator `{ v1 v2 ... }` terminated by a literal
`}` yields exactly the listed values in order, and an explicit list containing
zero values (`{ }`, with the value list still empty) is the fatal parse error
`throw 6`, which at the driver level exits with code `0x16 = 22`. -/
theorem explicit_list_spec :
    (∀ (ts : List Tok) (qs : List ℚ) (rest : List Item) (lbl : List Char),
      List.Forall₂ (fun t q => t.val = some q) ts qs → qs ≠ [] →
      parseEntry (qs.length + 1)
          (Item.tk ⟨[lbrace], none⟩ ::
            (ts.map Item.tk ++ Item.tk ⟨[rbrace], none⟩ :: rest)) [] lbl =
        Except.ok (qs, lbl, rest)) ∧
    (∀ (f : ℕ) (rest : List Item) (lbl : List Char),
      parseEntry (f + 1)
          (Item.tk ⟨[lbrace], none⟩ :: Item.tk ⟨[rbrace], none⟩ :: rest) []
          lbl =
        Except.error PErr.emptyList) ∧
    ∀ (fuel : ℕ) (items : List Item),
      parseLoop fuel items initPState = Except.error PErr.emptyList →
      runMain fuel items = Except.error 22 := by
  refine ⟨?_, ?_, ?_⟩
  · intro ts qs rest lbl hf hne
    rw [parseEntry]
    simp only [nextTok]
    rw [if_neg (by decide : ¬(Tok.mk [lbrace] none).text = ['='])]
    rw [if_neg (by decide : ¬(Tok.mk [lbrace] none).text = [':'])]
    simp only [if_true]
    simp only [takeNums_forall2 ts qs rest hf, nextTok]
    simp only [if_true, List.nil_append]
    rw [if_neg (fun hc => hne (List.length_eq_zero.mp hc))]
  · intro f rest lbl
    rw [parseEntry]
    simp only [nextTok]
    rw [if_neg (by decide : ¬(Tok.mk [lbrace] none).text = ['='])]
    rw [if_neg (by decide : ¬(Tok.mk [lbrace] none).text = [':'])]
    simp only [if_true]
    simp only [takeNums_stop f rest, nextTok]
    simp only [if_true, List.nil_append]
    rfl
  · intro fuel items h
    simp only [runMain, h]
    rfl

/-- The empty explicit-list stream `x { }`. -/
def eItems : List Item :=
  [Item.tk ⟨['x'], none⟩, Item.tk ⟨[lbrace], none⟩,
    Item.tk ⟨[rbrace], none⟩]

/-- Witness for C7: `{ 0.1 0.2 0.3 }` yields exactly those values, and `{ }`
is fatal with exit code 22. -/
theorem explicit_list_spec_witness :
    (List.Forall₂ (fun (t : Tok) (q : ℚ) => t.val = some q)
        [⟨['0', '.', '1'], some (1 / 10)⟩, ⟨['0', '.', '2'], some (1 / 5)⟩,
          ⟨['0', '.', '3'], some (3 / 10)⟩] [1 / 10, 1 / 5, 3 / 10] ∧
      ([1 / 10, 1 / 5, 3 / 10] : List ℚ) ≠ [] ∧
      parseLoop 10 eItems initPState = Except.error PErr.emptyList) ∧
      parseEntry 4
          (Item.tk ⟨[lbrace], none⟩ ::
            (([⟨['0', '.', '1'], some (1 / 10)⟩,
                ⟨['0', '.', '2'], some (1 / 5)⟩,
                ⟨['0', '.', '3'], some (3 / 10)⟩] : List Tok).map Item.tk ++
              Item.tk ⟨[rbrace], none⟩ :: [])) [] [] =
        Except.ok ([1 / 10, 1 / 5, 3 / 10], [], []) ∧
      parseEntry 1
          (Item.tk ⟨[lbrace], none⟩ :: Item.tk ⟨[rbrace], none⟩ :: []) [] [] =
        Except.error PErr.emptyList ∧
      runMain 10 eItems = Except.error 22 := by
  have hf : List.Forall₂ (fun (t : Tok) (q : ℚ) => t.val = some q)
      [⟨['0', '.', '1'], some (1 / 10)⟩, ⟨['0', '.', '2'], some (1 / 5)⟩,
        ⟨['0', '.', '3'], some (3 / 10)⟩] [1 / 10, 1 / 5, 3 / 10] :=
    List.Forall₂.cons rfl (List.Forall₂.cons rfl
      (List.Forall₂.cons rfl List.Forall₂.nil))
  refine ⟨⟨hf, by simp, rfl⟩, ?_, ?_, ?_⟩
  · exact explicit_list_spec.1
      [⟨['0', '.', '1'], some (1 / 10)⟩, ⟨['0', '.', '2'], some (1 / 5)⟩,
        ⟨['0', '.', '3'], some (3 / 10)⟩] [1 / 10, 1 / 5, 3 / 10] [] [] hf
      (by simp)
  · exact explicit_list_spec.2.1 0 [] []
  · exact explicit_list_spec.2.2 10 eItems rfl

end Metropolis
